import Mathlib

/-!
Verification of the ANSI color markup engine of `llnl/util/tty/color.py`
(repository scalability-llnl/cram).

Strings are modelled as `List Char`.  The single regular expression

  color_re = @(?:@|\.|([*_])?([a-zA-Z])?(?:\x7b((?:[^\x7d]|\x7d\x7d)*)\x7d)?)

is modelled by an explicit scanner (`scanMatch`, with `parseBody` for the
brace-block group), and `re.sub(color_re, match_to_ansi(color), s)` by the
recursive substitution `colorize`.  Raised `ColorParseError` exceptions are
modelled with `Except`; the human-readable messages carried by the Python
exceptions are elided, only the error kind and offending letter are kept.
Streams are modelled by the list of strings written to them plus their
`isatty()` answer.
-/

namespace Cram

/-- Errors raised by the renderer (`ColorParseError` in the source); the
message text is elided, the constructor records which of the two `raise`
sites fired. -/
inductive ColorParseError where
  | incomplete : ColorParseError
  | invalidColor : Char → ColorParseError
deriving DecidableEq, Repr

/-- The escape character 0x1B, written `\033` in the source. -/
def escChar : Char := Char.ofNat 27

/-- The dictionary `styles = {'*': '1', '_': '4', None: '0'}`.  The key is
the optional style group of the regex, which only ever captures `*` or `_`,
so exactly the three source keys are reachable. -/
def styles : Option Char → List Char
  | some '*' => ['1']
  | some '_' => ['4']
  | _ => ['0']

/-- The dictionary `colors` mapping the sixteen color letters to their SGR
foreground parameters: lowercase 30-37, uppercase 90-97; any other
character is not a key. -/
def colors : Char → Option Nat
  | 'k' => some 30
  | 'K' => some 90
  | 'r' => some 31
  | 'R' => some 91
  | 'g' => some 32
  | 'G' => some 92
  | 'y' => some 33
  | 'Y' => some 93
  | 'b' => some 34
  | 'B' => some 94
  | 'm' => some 35
  | 'M' => some 95
  | 'c' => some 36
  | 'C' => some 96
  | 'w' => some 37
  | 'W' => some 97
  | _ => none

/-- Decimal digits of a natural number, as characters (the source uses
`str(colors[color])`). -/
def natDigits (n : Nat) : List Char :=
  Nat.toDigits 10 n

/-- The character class `[a-zA-Z]` of the regex's letter group. -/
def isAsciiLetter (c : Char) : Bool :=
  ('a' ≤ c && c ≤ 'z') || ('A' ≤ c && c ≤ 'Z')

/-- Matching of the brace-block tail `((?:[^\x7d]|\x7d\x7d)*)\x7d` against
the characters that follow the opening brace, with the backtracking the
regex engine performs: the greedy body loop prefers a non-brace character,
then a doubled-brace pair; when the closing brace cannot be matched after
the loop, the last doubled-brace iteration is undone and its first brace
closes the block.  Returns the captured body and the characters after the
closing brace, or `none` when the group cannot match. -/
def parseBody : List Char → Option (List Char × List Char)
  | [] => none
  | '}' :: '}' :: t =>
      match parseBody t with
      | some (b, r) => some ('}' :: '}' :: b, r)
      | none => some ([], '}' :: t)
  | '}' :: t => some ([], t)
  | c :: t =>
      match parseBody t with
      | some (b, r) => some (c :: b, r)
      | none => none

/-- Result of matching `color_re` at an occurrence of `@`: one of the
two-character escapes, or a styled-span match with its three optional
groups (style marker, letter, brace-block body).  `expr none none none` is
the match whose whole text is the bare `@`. -/
inductive Matched where
  | atat : Matched
  | dot : Matched
  | expr : Option Char → Option Char → Option (List Char) → Matched
deriving DecidableEq, Repr

/-- The optional style group `([*_])?` of the regex. -/
def takeStyle : List Char → Option Char × List Char
  | c :: t => if c = '*' || c = '_' then (some c, t) else (none, c :: t)
  | [] => (none, [])

/-- The optional letter group `([a-zA-Z])?` of the regex. -/
def takeLetter : List Char → Option Char × List Char
  | c :: t => if isAsciiLetter c then (some c, t) else (none, c :: t)
  | [] => (none, [])

/-- The optional brace-block group of the regex: an opening brace whose
body and closing brace match per `parseBody`; when the block cannot be
completed the optional group matches the empty string instead. -/
def takeBlock (r : List Char) : Option (List Char) × List Char :=
  match r with
  | c :: t =>
    if c = '{' then
      match parseBody t with
      | some (b, rem) => (some b, rem)
      | none => (none, r)
    else (none, r)
  | [] => (none, r)

/-- Matching of `color_re` just after its leading `@`, on the rest of the
input: `@` and `.` are taken first (alternation order of the regex), and
otherwise the three optional groups are matched greedily in order.  Returns
the match data and the characters after the whole match. -/
def scanMatch (r : List Char) : Matched × List Char :=
  match r with
  | [] => (.expr none none none, [])
  | c :: t =>
    if c = '@' then (.atat, t)
    else if c = '.' then (.dot, t)
    else
      let s1 := takeStyle (c :: t)
      let s2 := takeLetter s1.2
      let s3 := takeBlock s2.2
      (.expr s1.1 s2.1 s3.1, s3.2)

/-- The method `match_to_ansi.escape`: the sequence `\033[%sm` when color
is on, the empty string otherwise. -/
def escape (color : Bool) (s : List Char) : List Char :=
  if color then escChar :: '[' :: (s ++ ['m'])
  else []

/-- The brace-block part of a styled span's rendering: `colored_text` is
empty unless the captured body is present and non-empty (`if text:` in the
source is false both for `None` and for the empty string), in which case it
is the body followed by `escape(0)`. -/
def coloredText (color : Bool) (blk : Option (List Char)) : List Char :=
  match blk with
  | some t => if t = [] then [] else t ++ escape color ['0']
  | none => []

/-- The handler `match_to_ansi.__call__` on a match: `@@` gives `@`, `@.`
gives the reset escape, the bare `@` raises, and a styled span renders
`escape(styles[style] + (';' + str(colors[color]))?) + colored_text`,
raising when the matched letter is not a key of `colors`. -/
def match_to_ansi (color : Bool) : Matched → Except ColorParseError (List Char)
  | .atat => .ok ['@']
  | .dot => .ok (escape color ['0'])
  | .expr sty col blk =>
    if sty = none ∧ col = none ∧ blk = none then
      .error .incomplete
    else
      match col with
      | none => .ok (escape color (styles sty) ++ coloredText color blk)
      | some c =>
        match colors c with
        | none => .error (.invalidColor c)
        | some n =>
          .ok (escape color (styles sty ++ ';' :: natDigits n) ++ coloredText color blk)

/- The next five lemmas bound how much input a match consumes; they justify
the termination of the substitution loop below. -/

theorem parseBody_rem_length :
    ∀ (t b r : List Char), parseBody t = some (b, r) → r.length < t.length := by
  intro t
  induction t using parseBody.induct with
  | case1 => intro b r h; simp [parseBody] at h
  | case2 t b0 r0 hrec ih =>
    intro b r h
    simp only [parseBody, hrec, Option.some.injEq, Prod.mk.injEq] at h
    obtain ⟨h1, h2⟩ := h
    subst h2
    have := ih b0 r0 hrec
    simp only [List.length_cons]
    omega
  | case3 t hrec ih =>
    intro b r h
    simp only [parseBody, hrec, Option.some.injEq, Prod.mk.injEq] at h
    obtain ⟨h1, h2⟩ := h
    subst h2
    simp
  | case4 t hne =>
    intro b r h
    rw [parseBody] at h
    · obtain ⟨h1, h2⟩ := Prod.mk.inj (Option.some.inj h)
      subst h2
      simp
    · exact hne
  | case5 c t hne1 hne2 b0 r0 hrec ih =>
    intro b r h
    rw [parseBody] at h
    · rw [hrec] at h
      obtain ⟨h1, h2⟩ := Prod.mk.inj (Option.some.inj h)
      subst h2
      have := ih b0 r0 hrec
      simp only [List.length_cons]
      omega
    · exact hne1
    · exact hne2
  | case6 c t hne1 hne2 hrec ih =>
    intro b r h
    rw [parseBody] at h
    · rw [hrec] at h
      exact absurd h (by simp)
    · exact hne1
    · exact hne2

theorem takeStyle_rem_length (r : List Char) : (takeStyle r).2.length ≤ r.length := by
  match r with
  | [] => simp [takeStyle]
  | c :: t =>
    rw [takeStyle]
    split <;> simp

theorem takeLetter_rem_length (r : List Char) : (takeLetter r).2.length ≤ r.length := by
  match r with
  | [] => simp [takeLetter]
  | c :: t =>
    rw [takeLetter]
    split <;> simp

theorem takeBlock_rem_length (r : List Char) : (takeBlock r).2.length ≤ r.length := by
  match r with
  | [] => simp [takeBlock]
  | c :: t =>
    rw [takeBlock]
    split
    · match h : parseBody t with
      | some (b, rem) =>
        have := parseBody_rem_length t b rem h
        simp only [List.length_cons]
        omega
      | none => simp
    · simp

theorem scanMatch_rem_length (t : List Char) : (scanMatch t).2.length ≤ t.length := by
  match t with
  | [] => simp [scanMatch]
  | c :: t =>
    rw [scanMatch]
    split
    · simp
    · split
      · simp
      · have h1 := takeStyle_rem_length (c :: t)
        have h2 := takeLetter_rem_length (takeStyle (c :: t)).2
        have h3 := takeBlock_rem_length (takeLetter (takeStyle (c :: t)).2).2
        simp only [List.length_cons] at *
        omega

/-- The recursive core of `re.sub(color_re, match_to_ansi(color), s)`: scan
left to right; characters other than `@` pass through; at `@` the regex is
matched, the handler's output replaces the match (a raised exception aborts
the whole substitution), and scanning resumes after the match. -/
def colorizeGo (color : Bool) : List Char → Except ColorParseError (List Char)
  | [] => .ok []
  | ch :: t =>
    if ch = '@' then
      match match_to_ansi color (scanMatch t).1 with
      | .error e => .error e
      | .ok out =>
        match colorizeGo color (scanMatch t).2 with
        | .error e => .error e
        | .ok rest => .ok (out ++ rest)
    else
      match colorizeGo color t with
      | .error e => .error e
      | .ok rest => .ok (ch :: rest)
termination_by s => s.length
decreasing_by
  · have := scanMatch_rem_length t
    simp only [List.length_cons]
    omega
  · simp

/-- The function `colorize(string, color=...)`: replace every color
expression in the string with its ANSI rendering, or raise
`ColorParseError`. -/
def colorize (s : List Char) (color : Bool) : Except ColorParseError (List Char) :=
  colorizeGo color s

/-- The function `cescape(string)`: every `@` is replaced by `@@`; all
other characters are kept. -/
def cescape (s : List Char) : List Char :=
  s.flatMap fun c => if c = '@' then ['@', '@'] else [c]

/-- Whether a render call raised (`Except.error`). -/
def raised {α : Type} : Except ColorParseError α → Bool
  | .error _ => true
  | .ok _ => false

/-- The two conditions under which the handler raises on a match: the whole
match is the bare `@` (all three groups empty), or the matched letter is
not a key of the color dictionary. -/
def badMatch : Matched → Bool
  | .atat => false
  | .dot => false
  | .expr sty col blk =>
    (decide (sty = none) && decide (col = none) && decide (blk = none)) ||
    (match col with
     | some x => (colors x).isNone
     | none => false)

/-- The error predicate of the renderer, stated over the scanner: scanning
left to right, a parse error is raised exactly when some matched expression
is a bare `@` or carries a letter outside the color set.  The color flag
plays no part. -/
def specRaises : List Char → Bool
  | [] => false
  | ch :: t =>
    if ch = '@' then
      badMatch (scanMatch t).1 || specRaises (scanMatch t).2
    else specRaises t
termination_by s => s.length
decreasing_by
  · have := scanMatch_rem_length t
    simp only [List.length_cons]
    omega
  · simp

/-- A one-character-or-empty list from an optional character (used to spell
out a styled span's source text group by group). -/
def optList : Option Char → List Char
  | some c => [c]
  | none => []

/-- The SGR parameter string of a styled span's opening escape: the style
code then, when a valid color letter is present, a semicolon and the SGR
color number. -/
def spanParams (sty col : Option Char) : List Char :=
  styles sty ++
    match col with
    | some x =>
      (match colors x with
       | some n => ';' :: natDigits n
       | none => [])
    | none => []

/-- The function `cwrite(string, stream, color)`.  The stream is modelled
by the list of strings written to it so far and its `isatty()` answer; the
result pairs the call's outcome (a raised `ColorParseError` propagates to
the caller) with the stream's final write list.  The source computes
`colorize(string, color=color)` first and only then calls `stream.write`
on the result, so on an exception no write happens. -/
def cwrite (string : List Char) (stream : List (List Char)) (isatty : Bool)
    (color : Option Bool) : Except ColorParseError Unit × List (List Char) :=
  let c := color.getD isatty
  match colorize string c with
  | .error e => (.error e, stream)
  | .ok r => (.ok (), stream ++ [r])

/-- The function `cprint`: `cwrite` of the string with a newline appended
before rendering. -/
def cprint (string : List Char) (stream : List (List Char)) (isatty : Bool)
    (color : Option Bool) : Except ColorParseError Unit × List (List Char) :=
  cwrite (string ++ [Char.ofNat 10]) stream isatty color

/-- A Python value passed as a positional argument (enough of the dynamic
type lattice for the calls modelled here). -/
inductive PyVal where
  | str : List Char → PyVal
  | bool : Bool → PyVal
  | pyNone : PyVal
deriving DecidableEq, Repr

/-- Exceptions escaping the `ColorStream` methods: a `TypeError` from a
call that does not bind to the method's signature, or a propagated
`ColorParseError`. -/
inductive PyError where
  | typeError : PyError
  | colorParse : ColorParseError → PyError
deriving DecidableEq, Repr

/-- The `ColorStream` wrapper: the fixed color setting of the decorator
and the wrapped stream (its write list and its `isatty()` answer). -/
structure ColorStream where
  color : Option Bool
  isatty : Bool
  stream : List (List Char)
deriving DecidableEq, Repr

/-- The value of `self.color` as a positional argument. -/
def pyValOfColor : Option Bool → PyVal
  | some b => .bool b
  | none => .pyNone

/-- The method `ColorStream.write(self, string, **kwargs)` as Python binds
a call to it: exactly one positional argument (bound to `string`, a
string) is accepted — any other positional argument list raises
`TypeError` (a single non-string argument would also end in a `TypeError`,
inside `re.sub`).  With `raw` set the text goes to the wrapped stream
unmodified via `super().write`; otherwise it is rendered through
`cwrite(string, self.stream, self.color)`. -/
def ColorStream.write (cs : ColorStream) (posArgs : List PyVal) (raw : Bool) :
    Except PyError ColorStream :=
  match posArgs with
  | [.str string] =>
    if raw then
      .ok { cs with stream := cs.stream ++ [string] }
    else
      match cwrite string cs.stream cs.isatty cs.color with
      | (.error e, _) => .error (.colorParse e)
      | (.ok _, st) => .ok { cs with stream := st }
  | _ => .error .typeError

/-- The method `ColorStream.writelines(self, sequence, **kwargs)`: for each
string of the sequence the source calls `self.write(string, self.color,
raw=raw)` — passing `self.color` as a second positional argument. -/
def ColorStream.writelines (cs : ColorStream) (sequence : List (List Char))
    (raw : Bool) : Except PyError ColorStream :=
  match sequence with
  | [] => .ok cs
  | s :: rest =>
    match cs.write [.str s, pyValOfColor cs.color] raw with
    | .error e => .error e
    | .ok cs2 => cs2.writelines rest raw

/-! ## Supporting lemmas -/

theorem match_to_ansi_raised (c : Bool) (m : Matched) :
    raised (match_to_ansi c m) = badMatch m := by
  cases m with
  | atat => rfl
  | dot => rfl
  | expr sty col blk =>
    simp only [match_to_ansi, badMatch]
    by_cases h : sty = none ∧ col = none ∧ blk = none
    · obtain ⟨h1, h2, h3⟩ := h
      subst h1; subst h2; subst h3
      simp [raised]
    · rw [if_neg h]
      cases col with
      | none =>
        have hnb : ¬(sty = none ∧ blk = none) := fun hh => h ⟨hh.1, rfl, hh.2⟩
        by_cases hs : sty = none
        · have hb : blk ≠ none := fun hb => hnb ⟨hs, hb⟩
          simp [raised, hs, hb]
        · simp [raised, hs]
      | some x =>
        cases hx : colors x with
        | none => simp [raised, hx, Option.isNone]
        | some n => simp [raised, hx, Option.isNone]

theorem colorizeGo_not_mem_at (c : Bool) :
    ∀ (s : List Char), '@' ∉ s → colorizeGo c s = .ok s := by
  intro s
  induction s with
  | nil => intro h; simp [colorizeGo]
  | cons a t ih =>
    intro h
    have ha : a ≠ '@' := fun hh => h (hh ▸ List.mem_cons_self a t)
    have ht : '@' ∉ t := fun hh => h (List.mem_cons_of_mem a hh)
    rw [colorizeGo, if_neg ha, ih ht]

theorem raised_colorizeGo (c : Bool) :
    ∀ (n : Nat) (s : List Char), s.length ≤ n →
      raised (colorizeGo c s) = specRaises s := by
  intro n
  induction n with
  | zero =>
    intro s hs
    have : s = [] := List.eq_nil_of_length_eq_zero (Nat.le_zero.mp hs)
    subst this
    simp [colorizeGo, specRaises, raised]
  | succ n ih =>
    intro s hs
    match s with
    | [] => simp [colorizeGo, specRaises, raised]
    | ch :: t =>
      rw [colorizeGo, specRaises]
      by_cases h : ch = '@'
      · rw [if_pos h, if_pos h]
        have hb := match_to_ansi_raised c (scanMatch t).1
        have hlen : (scanMatch t).2.length ≤ n := by
          have := scanMatch_rem_length t
          simp only [List.length_cons] at hs
          omega
        have h2 := ih (scanMatch t).2 hlen
        cases hm : match_to_ansi c (scanMatch t).1 with
        | error e =>
          rw [hm] at hb
          simp_all [raised]
        | ok out =>
          rw [hm] at hb
          cases hr : colorizeGo c (scanMatch t).2 with
          | error e =>
            rw [hr] at h2
            simp_all [raised]
          | ok rest =>
            rw [hr] at h2
            simp_all [raised]
      · rw [if_neg h, if_neg h]
        have hlen : t.length ≤ n := by
          simp only [List.length_cons] at hs
          omega
        have h2 := ih t hlen
        cases hr : colorizeGo c t with
        | error e => rw [hr] at h2; simp_all [raised]
        | ok rest => rw [hr] at h2; simp_all [raised]

theorem parseBody_mem :
    ∀ (t b r : List Char), parseBody t = some (b, r) →
      (∀ a, a ∈ b → a ∈ t) ∧ (∀ a, a ∈ r → a ∈ t) := by
  intro t
  induction t using parseBody.induct with
  | case1 => intro b r h; simp [parseBody] at h
  | case2 t b0 r0 hrec ih =>
    intro b r h
    simp only [parseBody, hrec, Option.some.injEq, Prod.mk.injEq] at h
    obtain ⟨h1, h2⟩ := h
    subst h1; subst h2
    obtain ⟨ihb, ihr⟩ := ih b0 r0 hrec
    constructor
    · intro a ha
      simp only [List.mem_cons] at ha ⊢
      rcases ha with ha | ha | ha
      · exact Or.inl ha
      · exact Or.inl ha
      · exact Or.inr (Or.inr (ihb a ha))
    · intro a ha
      simp only [List.mem_cons]
      exact Or.inr (Or.inr (ihr a ha))
  | case3 t hrec ih =>
    intro b r h
    simp only [parseBody, hrec, Option.some.injEq, Prod.mk.injEq] at h
    obtain ⟨h1, h2⟩ := h
    subst h1; subst h2
    constructor
    · intro a ha; simp at ha
    · intro a ha
      simp only [List.mem_cons] at ha ⊢
      rcases ha with ha | ha
      · exact Or.inl ha
      · exact Or.inr (Or.inr ha)
  | case4 t hne =>
    intro b r h
    rw [parseBody] at h
    · obtain ⟨h1, h2⟩ := Prod.mk.inj (Option.some.inj h)
      subst h1; subst h2
      constructor
      · intro a ha; simp at ha
      · intro a ha; exact List.mem_cons_of_mem _ ha
    · exact hne
  | case5 c t hne1 hne2 b0 r0 hrec ih =>
    intro b r h
    rw [parseBody] at h
    · rw [hrec] at h
      obtain ⟨h1, h2⟩ := Prod.mk.inj (Option.some.inj h)
      subst h1; subst h2
      obtain ⟨ihb, ihr⟩ := ih b0 r0 hrec
      constructor
      · intro a ha
        simp only [List.mem_cons] at ha ⊢
        rcases ha with ha | ha
        · exact Or.inl ha
        · exact Or.inr (ihb a ha)
      · intro a ha
        exact List.mem_cons_of_mem _ (ihr a ha)
    · exact hne1
    · exact hne2
  | case6 c t hne1 hne2 hrec ih =>
    intro b r h
    rw [parseBody] at h
    · rw [hrec] at h
      exact absurd h (by simp)
    · exact hne1
    · exact hne2

theorem scanMatch_mem (t : List Char) :
    (∀ sty col b, (scanMatch t).1 = .expr sty col (some b) → ∀ a, a ∈ b → a ∈ t) ∧
    (∀ a, a ∈ (scanMatch t).2 → a ∈ t) := by
  match t with
  | [] =>
    constructor
    · intro sty col b h; simp [scanMatch] at h
    · intro a ha; simp [scanMatch] at ha
  | c :: t =>
    rw [scanMatch]
    by_cases hc : c = '@'
    · rw [if_pos hc]
      constructor
      · intro sty col b h; simp at h
      · intro a ha; exact List.mem_cons_of_mem _ ha
    · rw [if_neg hc]
      by_cases hd : c = '.'
      · rw [if_pos hd]
        constructor
        · intro sty col b h; simp at h
        · intro a ha; exact List.mem_cons_of_mem _ ha
      · rw [if_neg hd]
        have hstyle : ∀ a, a ∈ (takeStyle (c :: t)).2 → a ∈ c :: t := by
          rw [takeStyle]
          split
          · intro a ha; exact List.mem_cons_of_mem _ ha
          · intro a ha; exact ha
        have hletter : ∀ a, a ∈ (takeLetter (takeStyle (c :: t)).2).2 →
            a ∈ (takeStyle (c :: t)).2 := by
          match hts : (takeStyle (c :: t)).2 with
          | [] => intro a ha; simp [takeLetter] at ha
          | d :: u =>
            rw [takeLetter]
            split
            · intro a ha; exact List.mem_cons_of_mem _ ha
            · intro a ha; exact ha
        have hblock : (∀ b, (takeBlock (takeLetter (takeStyle (c :: t)).2).2).1 = some b →
              ∀ a, a ∈ b → a ∈ (takeLetter (takeStyle (c :: t)).2).2) ∧
            (∀ a, a ∈ (takeBlock (takeLetter (takeStyle (c :: t)).2).2).2 →
              a ∈ (takeLetter (takeStyle (c :: t)).2).2) := by
          match htl : (takeLetter (takeStyle (c :: t)).2).2 with
          | [] =>
            constructor
            · intro b h; simp [takeBlock] at h
            · intro a ha; simp [takeBlock] at ha
          | d :: u =>
            rw [takeBlock]
            split
            · match hp : parseBody u with
              | some (b0, rem) =>
                obtain ⟨hmb, hmr⟩ := parseBody_mem u b0 rem hp
                simp only [hp]
                constructor
                · intro b h
                  obtain rfl : b0 = b := Option.some.inj h
                  intro a ha
                  exact List.mem_cons_of_mem _ (hmb a ha)
                · intro a ha
                  exact List.mem_cons_of_mem _ (hmr a ha)
              | none =>
                simp only [hp]
                constructor
                · intro b h; simp at h
                · intro a ha; exact ha
            · constructor
              · intro b h; simp at h
              · intro a ha; exact ha
        constructor
        · intro sty col b h a ha
          simp only at h
          obtain ⟨h1, h2, h3⟩ := Matched.expr.inj h
          exact hstyle a (hletter a (hblock.1 b h3 a ha))
        · intro a ha
          exact hstyle a (hletter a (hblock.2 a ha))

theorem match_to_ansi_false_mem (m : Matched) (out : List Char)
    (h : match_to_ansi false m = .ok out) :
    ∀ a, a ∈ out → a = '@' ∨ ∃ sty col b, m = .expr sty col (some b) ∧ a ∈ b := by
  intro a ha
  cases m with
  | atat =>
    obtain rfl : ['@'] = out := Except.ok.inj h
    simp at ha
    exact Or.inl ha
  | dot =>
    obtain rfl : escape false ['0'] = out := Except.ok.inj h
    simp [escape] at ha
  | expr sty col blk =>
    simp only [match_to_ansi] at h
    split at h
    · exact absurd h (by simp)
    · right
      cases col with
      | none =>
        obtain rfl : escape false (styles sty) ++ coloredText false blk = out :=
          Except.ok.inj h
        simp only [escape, if_neg Bool.false_ne_true, List.nil_append] at ha
        cases blk with
        | none => simp [coloredText] at ha
        | some b =>
          refine ⟨sty, none, b, rfl, ?_⟩
          simp only [coloredText] at ha
          split at ha
          · simp at ha
          · simp [escape] at ha
            exact ha
      | some x =>
        simp only [] at h
        cases hx : colors x with
        | none => rw [hx] at h; exact absurd h (by simp)
        | some n =>
          rw [hx] at h
          obtain rfl : escape false (styles sty ++ ';' :: natDigits n) ++
              coloredText false blk = out := Except.ok.inj h
          simp only [escape, if_neg Bool.false_ne_true, List.nil_append] at ha
          cases blk with
          | none => simp [coloredText] at ha
          | some b =>
            refine ⟨sty, some x, b, rfl, ?_⟩
            simp only [coloredText] at ha
            split at ha
            · simp at ha
            · simp [escape] at ha
              exact ha

theorem colorizeGo_false_mem :
    ∀ (n : Nat) (s : List Char), s.length ≤ n → ∀ r, colorizeGo false s = .ok r →
      ∀ a, a ∈ r → a = '@' ∨ a ∈ s := by
  intro n
  induction n with
  | zero =>
    intro s hs r h a ha
    have : s = [] := List.eq_nil_of_length_eq_zero (Nat.le_zero.mp hs)
    subst this
    simp only [colorizeGo] at h
    obtain rfl : ([] : List Char) = r := Except.ok.inj h
    simp at ha
  | succ n ih =>
    intro s hs r h a ha
    match s with
    | [] =>
      simp only [colorizeGo] at h
      obtain rfl : ([] : List Char) = r := Except.ok.inj h
      simp at ha
    | ch :: t =>
      rw [colorizeGo] at h
      by_cases hc : ch = '@'
      · rw [if_pos hc] at h
        cases hm : match_to_ansi false (scanMatch t).1 with
        | error e => rw [hm] at h; exact absurd h (by simp)
        | ok out =>
          rw [hm] at h
          cases hr : colorizeGo false (scanMatch t).2 with
          | error e => rw [hr] at h; exact absurd h (by simp)
          | ok rest =>
            rw [hr] at h
            obtain rfl : out ++ rest = r := Except.ok.inj h
            have hlen : (scanMatch t).2.length ≤ n := by
              have := scanMatch_rem_length t
              simp only [List.length_cons] at hs
              omega
            rcases List.mem_append.mp ha with hao | har
            · rcases match_to_ansi_false_mem (scanMatch t).1 out hm a hao with
                hat | ⟨sty, col, b, hm2, hab⟩
              · exact Or.inl hat
              · right
                exact List.mem_cons_of_mem _ ((scanMatch_mem t).1 sty col b hm2 a hab)
            · rcases ih (scanMatch t).2 hlen rest hr a har with hat | hmem
              · exact Or.inl hat
              · exact Or.inr (List.mem_cons_of_mem _ ((scanMatch_mem t).2 a hmem))
      · rw [if_neg hc] at h
        cases hr : colorizeGo false t with
        | error e => rw [hr] at h; exact absurd h (by simp)
        | ok rest =>
          rw [hr] at h
          obtain rfl : ch :: rest = r := Except.ok.inj h
          have hlen : t.length ≤ n := by
            simp only [List.length_cons] at hs
            omega
          rcases List.mem_cons.mp ha with rfl | har
          · exact Or.inr (List.mem_cons_self _ _)
          · rcases ih t hlen rest hr a har with hat | hmem
            · exact Or.inl hat
            · exact Or.inr (List.mem_cons_of_mem _ hmem)

/-- Characters in the 16-entry color dictionary are ASCII letters and none
of the scanner's special characters. -/
theorem colors_isSome_facts (x : Char) (h : (colors x).isSome = true) :
    isAsciiLetter x = true ∧ (x = '*' || x = '_') = false ∧ x ≠ '@' ∧ x ≠ '.' := by
  unfold colors at h
  split at h <;> first | decide | simp at h

theorem parseBody_eq_none (t : List Char) (h : '}' ∉ t) : parseBody t = none := by
  induction t with
  | nil => rfl
  | cons c u ih =>
    have hc : c ≠ '}' := fun hh => h (hh ▸ List.mem_cons_self c u)
    have hu : '}' ∉ u := fun hh => h (List.mem_cons_of_mem c hh)
    rw [parseBody]
    · rw [ih hu]
    · intro t1 h1 h2; exact hc h1
    · intro h1; exact hc h1

/-! ## The claims -/

/-- C1: the spec says a styled span's brace-block text is emitted with
`}}` unescaped to `}`, so that `render("@r\x7ba\x7d\x7db\x7d", true)` is the
colored text `a\x7db` and a reset.  The code appends the captured body
verbatim — no unescaping happens anywhere — so the output keeps the doubled
brace: the colored text is `a\x7d\x7db`.  This contradicts the module's own
docstring ("To output a \x7d inside braces, use '\x7d\x7d'"), so the code,
not the spec, is at fault. -/
theorem c1_brace_unescaping_missing :
    colorize ['@', 'r', '{', 'a', '}', '}', 'b', '}'] true
      = .ok [escChar, '[', '0', ';', '3', '1', 'm', 'a', '}', '}', 'b',
             escChar, '[', '0', 'm'] ∧
    colorize ['@', 'r', '{', 'a', '}', '}', 'b', '}'] true
      ≠ .ok [escChar, '[', '0', ';', '3', '1', 'm', 'a', '}', 'b',
             escChar, '[', '0', 'm'] := by
  have h : colorize ['@', 'r', '{', 'a', '}', '}', 'b', '}'] true
      = .ok [escChar, '[', '0', ';', '3', '1', 'm', 'a', '}', '}', 'b',
             escChar, '[', '0', 'm'] := by
    simp [colorize, colorizeGo, scanMatch, takeStyle, takeLetter, takeBlock, parseBody,
          match_to_ansi, escape, coloredText, styles, colors, natDigits, Nat.toDigits,
          Nat.toDigitsCore, Nat.digitChar, isAsciiLetter]
  refine ⟨h, ?_⟩
  rw [h]
  simp [escChar]

/-- C2: the spec says every styled span with a brace block — the empty
block included — is self-terminating, ending in the reset sequence.  For
the empty block the code's `if text:` is false, so `render("@r\x7b\x7d",
true)` is just the color-on escape with no reset appended: the terminal is
left colored, against the docstring's "If braces are present, only the
text in braces is colored". -/
theorem c2_empty_block_not_reset :
    colorize ['@', 'r', '{', '}'] true
      = .ok [escChar, '[', '0', ';', '3', '1', 'm'] ∧
    colorize ['@', 'r', '{', '}'] true
      ≠ .ok ([escChar, '[', '0', ';', '3', '1', 'm'] ++ [escChar, '[', '0', 'm']) := by
  have h : colorize ['@', 'r', '{', '}'] true
      = .ok [escChar, '[', '0', ';', '3', '1', 'm'] := by
    simp [colorize, colorizeGo, scanMatch, takeStyle, takeLetter, takeBlock, parseBody,
          match_to_ansi, escape, coloredText, styles, colors, natDigits, Nat.toDigits,
          Nat.toDigitsCore, Nat.digitChar, isAsciiLetter]
  refine ⟨h, ?_⟩
  rw [h]
  simp

/-- C3 counterexample: the claim says `@` followed by `\x7b` is a valid
continuation and never an Incomplete error; but when the brace block does
not close, the optional groups all match empty, the match is the bare `@`,
and the renderer raises — for both color settings. -/
theorem c3_unclosed_brace_raises :
    colorize ['@', '{', 'a'] true = .error .incomplete ∧
    colorize ['@', '{', 'a'] false = .error .incomplete := by
  constructor <;>
    simp [colorize, colorizeGo, scanMatch, takeStyle, takeLetter, takeBlock, parseBody,
          match_to_ansi, escape, coloredText, styles, colors, natDigits, Nat.toDigits,
          Nat.toDigitsCore, Nat.digitChar, isAsciiLetter]

/-- C3 (amended): rendering raises exactly when some matched expression is
a bare `@` — no style marker, no letter, and no completed brace block
follow (a `\x7b` whose block never closes leaves the match bare) — or
carries a letter outside the sixteen-symbol color set; the color setting
plays no part.  In particular `render("@", c)` and `render("@x\x7bhi\x7d",
c)` raise for both settings. -/
theorem c3_error_triggers :
    (∀ (s : List Char) (c : Bool), raised (colorize s c) = specRaises s) ∧
    colorize ['@'] true = .error .incomplete ∧
    colorize ['@'] false = .error .incomplete ∧
    colorize ['@', 'x', '{', 'h', 'i', '}'] true = .error (.invalidColor 'x') ∧
    colorize ['@', 'x', '{', 'h', 'i', '}'] false = .error (.invalidColor 'x') := by
    refine ⟨fun s c => raised_colorizeGo c s.length s le_rfl, ?_, ?_, ?_, ?_⟩ <;>
      simp [colorize, colorizeGo, scanMatch, takeStyle, takeLetter, takeBlock, parseBody,
            match_to_ansi, escape, coloredText, styles, colors, natDigits, Nat.toDigits,
            Nat.toDigitsCore, Nat.digitChar, isAsciiLetter]

/-- C4: round trip — for every string and both color settings, rendering
the `cescape`d string raises nothing and returns the original string
unchanged: each doubled `@` renders back to `@` and every other character
passes through. -/
theorem c4_cescape_roundtrip (s : List Char) (c : Bool) :
    colorize (cescape s) c = .ok s := by
  unfold colorize
  induction s with
  | nil => simp [cescape, colorizeGo]
  | cons a t ih =>
    by_cases ha : a = '@'
    · subst ha
      have he : cescape ('@' :: t) = '@' :: '@' :: cescape t := by simp [cescape]
      rw [he, colorizeGo, if_pos rfl]
      have hs : scanMatch ('@' :: cescape t) = (.atat, cescape t) := by
        simp [scanMatch]
      rw [hs]
      simp only [match_to_ansi]
      rw [ih]
      rfl
    · have he : cescape (a :: t) = a :: cescape t := by simp [cescape, ha]
      rw [he, colorizeGo, if_neg ha, ih]

/-- C5: with color enabled a styled span opens with the escape
`ESC [ params m`: when a valid color letter is present, `params` is the
style code followed by a semicolon and the color's SGR number; when no
color letter is present (and the match is not the bare `@`), `params` is
the style code alone.  Concretely `render("@r\x7bhi\x7d", true)` and
`render("@*b\x7bhi\x7d", true)` give the two spec outputs, and the
letter-free `render("@*\x7bhi\x7d", true)` opens with `ESC[1m`. -/
theorem c5_opening_escape :
    (∀ (sty : Option Char) (x : Char) (n : Nat) (blk : Option (List Char)),
      colors x = some n →
        match_to_ansi true (.expr sty (some x) blk)
          = .ok ((escChar :: '[' :: ((styles sty ++ ';' :: natDigits n) ++ ['m']))
              ++ coloredText true blk)) ∧
    (∀ (sty : Option Char) (blk : Option (List Char)),
      sty ≠ none ∨ blk ≠ none →
        match_to_ansi true (.expr sty none blk)
          = .ok ((escChar :: '[' :: (styles sty ++ ['m'])) ++ coloredText true blk)) ∧
    colorize ['@', 'r', '{', 'h', 'i', '}'] true
      = .ok [escChar, '[', '0', ';', '3', '1', 'm', 'h', 'i', escChar, '[', '0', 'm'] ∧
    colorize ['@', '*', 'b', '{', 'h', 'i', '}'] true
      = .ok [escChar, '[', '1', ';', '3', '4', 'm', 'h', 'i', escChar, '[', '0', 'm'] ∧
    colorize ['@', '*', '{', 'h', 'i', '}'] true
      = .ok [escChar, '[', '1', 'm', 'h', 'i', escChar, '[', '0', 'm'] := by
  refine ⟨?_, ?_, ?_, ?_, ?_⟩
  · intro sty x n blk h
    simp only [match_to_ansi]
    rw [if_neg (by simp)]
    simp [h, escape]
  · intro sty blk h
    simp only [match_to_ansi]
    rw [if_neg (fun hh => h.elim (fun hs => hs hh.1) (fun hb => hb hh.2.2))]
    simp [escape]
  · simp [colorize, colorizeGo, scanMatch, takeStyle, takeLetter, takeBlock, parseBody,
          match_to_ansi, escape, coloredText, styles, colors, natDigits, Nat.toDigits,
          Nat.toDigitsCore, Nat.digitChar, isAsciiLetter]
  · simp [colorize, colorizeGo, scanMatch, takeStyle, takeLetter, takeBlock, parseBody,
          match_to_ansi, escape, coloredText, styles, colors, natDigits, Nat.toDigits,
          Nat.toDigitsCore, Nat.digitChar, isAsciiLetter]
  · simp [colorize, colorizeGo, scanMatch, takeStyle, takeLetter, takeBlock, parseBody,
          match_to_ansi, escape, coloredText, styles, colors, natDigits, Nat.toDigits,
          Nat.toDigitsCore, Nat.digitChar, isAsciiLetter]

/-- C6: identity on markup-free text — a string with no `@` renders to
itself under either color setting. -/
theorem c6_markup_free_identity (s : List Char) (c : Bool) (h : '@' ∉ s) :
    colorize s c = .ok s :=
  colorizeGo_not_mem_at c s h

/-- C6 witness: the identity at the concrete markup-free input `hi`. -/
theorem c6_markup_free_identity_witness :
    colorize ['h', 'i'] true = .ok ['h', 'i'] :=
  c6_markup_free_identity ['h', 'i'] true (by decide)

/-- C7 counterexample: the claim quantifies over every syntactically valid
input, but an input that itself contains the escape byte passes it through
in plain mode, so the output of `render` with color disabled is not free of
0x1B. -/
theorem c7_escape_byte_passes_through :
    colorize [escChar] false = .ok [escChar] ∧ escChar ∈ [escChar] := by
  constructor
  · exact colorizeGo_not_mem_at false [escChar] (by decide)
  · simp

/-- C7 (amended): plain mode introduces no escape byte — for every input
that contains no 0x1B and renders without error with color disabled, the
output contains no 0x1B (every escape-producing construct renders empty,
`@@` renders to `@`, block bodies are emitted verbatim). -/
theorem c7_plain_mode_no_escape (s r : List Char) (hin : escChar ∉ s)
    (h : colorize s false = .ok r) : escChar ∉ r := by
  intro hmem
  rcases colorizeGo_false_mem s.length s le_rfl r h escChar hmem with hat | hs
  · exact absurd hat (by decide)
  · exact hin hs

/-- C7 witness: the amended claim applied at the concrete input `a`. -/
theorem c7_plain_mode_no_escape_witness : escChar ∉ (['a'] : List Char) :=
  c7_plain_mode_no_escape ['a'] ['a'] (by decide)
    (by simp [colorize, colorizeGo])

/-- C8: `cwrite` is atomic — the string is rendered before the stream is
touched, so when rendering raises, the error propagates with the stream's
write list unchanged, and when rendering succeeds the stream receives
exactly one write carrying the fully rendered string. -/
theorem c8_cwrite_atomic (string : List Char) (stream : List (List Char))
    (isatty : Bool) (color : Option Bool) :
    (∀ e, colorize string (color.getD isatty) = .error e →
      cwrite string stream isatty color = (.error e, stream)) ∧
    (∀ r, colorize string (color.getD isatty) = .ok r →
      cwrite string stream isatty color = (.ok (), stream ++ [r])) := by
  constructor
  · intro e he
    simp [cwrite, he]
  · intro r hr
    simp [cwrite, hr]

/-- C9: the claim says `writelines` forwards each element to `write` with
the same `raw` flag.  The source instead calls `self.write(string,
self.color, raw=raw)`, passing `self.color` as a second positional
argument to a method that accepts only one — Python raises `TypeError` on
the first element of any non-empty sequence, before anything is written. -/
theorem c9_writelines_type_error (color : Option Bool) (isatty : Bool)
    (stream : List (List Char)) (s : List Char) (rest : List (List Char))
    (raw : Bool) :
    ColorStream.writelines ⟨color, isatty, stream⟩ (s :: rest) raw
      = .error .typeError := by
  rw [ColorStream.writelines]
  have h : ColorStream.write ⟨color, isatty, stream⟩
      [.str s, pyValOfColor color] raw = .error .typeError := by
    rw [ColorStream.write]
    intro st hst
    simp at hst
  rw [h]

/-- C10 counterexample: the claim says an unclosed brace block never makes
rendering raise, but when the text after the unconsumed `\x7b` contains
further markup it is scanned as usual — here a trailing bare `@` — and the
render raises. -/
theorem c10_tail_markup_raises :
    colorize ['@', 'r', '{', 'a', '@'] true = .error .incomplete := by
  simp [colorize, colorizeGo, scanMatch, takeStyle, takeLetter, takeBlock, parseBody,
        match_to_ansi, escape, coloredText, styles, colors, natDigits, Nat.toDigits,
        Nat.toDigitsCore, Nat.digitChar, isAsciiLetter]

/-- C10 (amended): for a span of `@`, an optional style marker and an
optional valid color letter (at least one present) followed by `\x7b`,
where the rest of the string holds no `\x7d` (so the block cannot close —
with any `\x7d` present the greedy matcher would close a block there) and
no further `@`, rendering raises no error: only the span's style/color-on
escape is emitted, and the `\x7b` with all following text passes through
unchanged. -/
theorem c10_unclosed_block_passthrough (sty col : Option Char) (rest : List Char)
    (hsty : sty = none ∨ sty = some '*' ∨ sty = some '_')
    (hcol : ∀ x, col = some x → (colors x).isSome = true)
    (hone : sty ≠ none ∨ col ≠ none)
    (hbr : '}' ∉ rest) (hat : '@' ∉ rest) (c : Bool) :
    colorize ('@' :: (optList sty ++ optList col ++ '{' :: rest)) c
      = .ok (escape c (spanParams sty col) ++ '{' :: rest) := by
  have hpb : parseBody rest = none := parseBody_eq_none rest hbr
  have hrest : colorizeGo c ('{' :: rest) = .ok ('{' :: rest) := by
    apply colorizeGo_not_mem_at
    intro hh
    rcases List.mem_cons.mp hh with hh | hh
    · exact absurd hh.symm (by decide)
    · exact hat hh
  unfold colorize
  rw [colorizeGo, if_pos rfl]
  rcases hsty with rfl | rfl | rfl
  · rcases hone with hs | hc
    · exact absurd rfl hs
    · match col, hc with
      | some x, _ =>
        have hx := hcol x rfl
        obtain ⟨hl, hsu, hne1, hne2⟩ := colors_isSome_facts x hx
        obtain ⟨n, hn⟩ := Option.isSome_iff_exists.mp hx
        have hscan : scanMatch (optList none ++ optList (some x) ++ '{' :: rest)
            = (.expr none (some x) none, '{' :: rest) := by
          simp only [optList, List.nil_append, List.cons_append]
          rw [scanMatch, if_neg hne1, if_neg hne2]
          simp [takeStyle, takeLetter, takeBlock, hsu, hl, hpb]
        rw [hscan]
        simp only [match_to_ansi]
        rw [if_neg (by simp)]
        simp only [hn, hrest]
        simp [coloredText, spanParams, hn]
  · cases col with
    | none =>
      have hscan : scanMatch (optList (some '*') ++ optList none ++ '{' :: rest)
          = (.expr (some '*') none none, '{' :: rest) := by
        simp only [optList, List.nil_append, List.cons_append]
        rw [scanMatch, if_neg (by decide), if_neg (by decide)]
        simp [takeStyle, takeLetter, takeBlock, hpb, isAsciiLetter]
      rw [hscan]
      simp only [match_to_ansi]
      rw [if_neg (by simp)]
      simp only [hrest]
      simp [coloredText, spanParams]
    | some x =>
      have hx := hcol x rfl
      obtain ⟨hl, hsu, hne1, hne2⟩ := colors_isSome_facts x hx
      obtain ⟨n, hn⟩ := Option.isSome_iff_exists.mp hx
      have hscan : scanMatch (optList (some '*') ++ optList (some x) ++ '{' :: rest)
          = (.expr (some '*') (some x) none, '{' :: rest) := by
        simp only [optList, List.cons_append, List.nil_append]
        rw [scanMatch, if_neg (by decide), if_neg (by decide)]
        simp [takeStyle, takeLetter, takeBlock, hl, hpb]
      rw [hscan]
      simp only [match_to_ansi]
      rw [if_neg (by simp)]
      simp only [hn, hrest]
      simp [coloredText, spanParams, hn]
  · cases col with
    | none =>
      have hscan : scanMatch (optList (some '_') ++ optList none ++ '{' :: rest)
          = (.expr (some '_') none none, '{' :: rest) := by
        simp only [optList, List.nil_append, List.cons_append]
        rw [scanMatch, if_neg (by decide), if_neg (by decide)]
        simp [takeStyle, takeLetter, takeBlock, hpb, isAsciiLetter]
      rw [hscan]
      simp only [match_to_ansi]
      rw [if_neg (by simp)]
      simp only [hrest]
      simp [coloredText, spanParams]
    | some x =>
      have hx := hcol x rfl
      obtain ⟨hl, hsu, hne1, hne2⟩ := colors_isSome_facts x hx
      obtain ⟨n, hn⟩ := Option.isSome_iff_exists.mp hx
      have hscan : scanMatch (optList (some '_') ++ optList (some x) ++ '{' :: rest)
          = (.expr (some '_') (some x) none, '{' :: rest) := by
        simp only [optList, List.cons_append, List.nil_append]
        rw [scanMatch, if_neg (by decide), if_neg (by decide)]
        simp [takeStyle, takeLetter, takeBlock, hl, hpb]
      rw [hscan]
      simp only [match_to_ansi]
      rw [if_neg (by simp)]
      simp only [hn, hrest]
      simp [coloredText, spanParams, hn]

/-- C10 witness: the amended claim at the concrete unclosed span
`@r\x7babc`, rendering with color on. -/
theorem c10_unclosed_block_passthrough_witness :
    colorize ('@' :: (optList none ++ optList (some 'r') ++ '{' :: ['a', 'b', 'c'])) true
      = .ok (escape true (spanParams none (some 'r')) ++ '{' :: ['a', 'b', 'c']) :=
  c10_unclosed_block_passthrough none (some 'r') ['a', 'b', 'c']
    (Or.inl rfl) (fun x hx => (Option.some.inj hx) ▸ rfl)
    (Or.inr (fun h => Option.noConfusion h)) (by decide) (by decide) true

end Cram
